import Mathlib

/-!
Shallow embedding of the expense-tracker server (src/main.py).

Modelling conventions:
* The SQLite table `expenses` is a `Store`: the list of `Record`s (its rows,
  in rowid order) together with `nextId`, the AUTOINCREMENT sequence value,
  so the next inserted row receives rowid `nextId` and `nextId` then grows.
  `Store.WF` states the invariants SQLite maintains for this table: rowids
  strictly ascend along the table and every rowid is below `nextId`.
* SQLite `REAL` amounts are modelled as exact rationals (`ℚ`).
* SQLite string comparison (`BETWEEN`, equality, ordering) is the
  lexicographic order on Lean strings, which agrees with byte-wise
  comparison of their UTF-8 encodings.
* SQL `LIKE` is modelled by `likeMatch`, SQLite's default semantics:
  ASCII-case-insensitive character comparison, `%` matching any sequence
  and `_` matching any single character.
* Python's `f"{x:.2f}"` on the (exactly represented) sums is modelled by
  `fmt2`, fixed-point rendering with two digits after the decimal point.
-/

/-- One row of the `expenses` table (src/main.py, `init_db`). -/
structure Record where
  id : Nat
  date : String
  name : String
  amount : ℚ
  category : String
  subcategory : String
  note : String
deriving DecidableEq

/-- The `expenses` table: rows in rowid order plus the AUTOINCREMENT counter. -/
structure Store where
  records : List Record
  nextId : Nat
deriving DecidableEq

/-- Rowids strictly ascend along the list (decidable form). -/
def idsAscending : List Record → Bool
  | [] => true
  | [_] => true
  | a :: b :: t => decide (a.id < b.id) && idsAscending (b :: t)

/-- The invariants SQLite maintains for the `expenses` table: rowids strictly
ascend in table order and every rowid is below the AUTOINCREMENT counter. -/
def Store.WF (st : Store) : Prop :=
  idsAscending st.records = true ∧ ∀ r ∈ st.records, r.id < st.nextId

instance (st : Store) : Decidable st.WF := by
  unfold Store.WF; infer_instance

/-- Lower-case an ASCII letter; SQLite's default `LIKE` folds only ASCII. -/
def asciiLower (c : Char) : Char :=
  if 'A' ≤ c ∧ c ≤ 'Z' then Char.ofNat (c.toNat + 32) else c

/-- `likeTail f s` is true when `f` accepts some suffix of `s` (including
`s` itself and the empty suffix): the continuation of a `%` wildcard. -/
def likeTail (f : List Char → Bool) : List Char → Bool
  | [] => f []
  | d :: t => f (d :: t) || likeTail f t

/-- SQLite's default `LIKE` pattern matching: `%` matches any sequence,
`_` matches any single character, other characters compare
ASCII-case-insensitively. -/
def likeMatch : List Char → List Char → Bool
  | [], s => s.isEmpty
  | c :: p, s =>
      if c = '%' then likeTail (likeMatch p) s
      else
        match s with
        | [] => false
        | d :: t => (if c = '_' then true else asciiLower c == asciiLower d) && likeMatch p t

/-- One SQL value, as returned in a result row. -/
inductive Value where
  | int : Nat → Value
  | str : String → Value
  | real : ℚ → Value
deriving DecidableEq

/-- `dict(zip(cols, row))` for the `SELECT id, date, name, amount, category,
subcategory, note` row of `list_expenses`. -/
def rowToDict (r : Record) : List (String × Value) :=
  [("id", Value.int r.id), ("date", Value.str r.date), ("name", Value.str r.name),
   ("amount", Value.real r.amount), ("category", Value.str r.category),
   ("subcategory", Value.str r.subcategory), ("note", Value.str r.note)]

/-- The `id` column of a result row (0 if absent, which never happens here). -/
def rowIdNat (row : List (String × Value)) : Nat :=
  match row.lookup "id" with
  | some (Value.int n) => n
  | _ => 0

/-- Result of `add_expense`: `{"status": "OK", "id": c.lastrowid}`. -/
structure AddResult where
  status : String
  id : Nat
deriving DecidableEq

/-- Result of `update_expense`: `{"status": "OK"}`. -/
structure UpdateResult where
  status : String
deriving DecidableEq

/-- `add_expense` (src/main.py:90-102): INSERT one row, rowid assigned by
AUTOINCREMENT, returning status and `lastrowid`. -/
def add_expense (st : Store) (date nm : String) (amount : ℚ)
    (category subcategory note : String) : AddResult × Store :=
  let r : Record :=
    { id := st.nextId, date := date, name := nm, amount := amount,
      category := category, subcategory := subcategory, note := note }
  ({ status := "OK", id := st.nextId },
   { records := st.records ++ [r], nextId := st.nextId + 1 })

/-- The `subcategory = ?` clause of `list_expenses`; Python truthiness means
an empty filter adds no clause (src/main.py:112-113). -/
def subcatPass (subcategory : String) (r : Record) : Bool :=
  if subcategory = "" then true else decide (r.subcategory = subcategory)

/-- The `note LIKE ?` clause with parameter `f"%:note:%"`; an empty filter
adds no clause (src/main.py:114-115). -/
def notePass (note : String) (r : Record) : Bool :=
  if note = "" then true else likeMatch ('%' :: (note.data ++ ['%'])) r.note.data

/-- `list_expenses` (src/main.py:107-120): SELECT with the optional clauses,
`ORDER BY id ASC`, each row returned as a column-name-to-value dict. -/
def list_expenses (st : Store) (subcategory note : String) : List (List (String × Value)) :=
  (List.insertionSort (fun a b : Record => a.id ≤ b.id)
      (st.records.filter (fun r => subcatPass subcategory r && notePass note r))).map
    rowToDict

/-- `delete_expense` (src/main.py:123-131): `DELETE FROM expenses WHERE id = ?`. -/
def delete_expense (st : Store) (i : Nat) : Store :=
  { st with records := st.records.filter (fun r => decide (r.id ≠ i)) }

/-- The effect of `UPDATE ... WHERE id = ?` on one row: a row whose id
matches has all non-id columns replaced; any other row is untouched. -/
def applyUpd (i : Nat) (date nm : String) (amount : ℚ)
    (category subcategory note : String) (r : Record) : Record :=
  if r.id = i then
    { id := r.id, date := date, name := nm, amount := amount,
      category := category, subcategory := subcategory, note := note }
  else r

/-- `update_expense` (src/main.py:134-146): `UPDATE expenses SET ... WHERE
id = ?`, then `{"status": "OK"}` regardless of how many rows matched. -/
def update_expense (st : Store) (i : Nat) (date nm : String) (amount : ℚ)
    (category subcategory note : String) : UpdateResult × Store :=
  ({ status := "OK" },
   { st with records := st.records.map (applyUpd i date nm amount category subcategory note) })

/-- Lexicographic order on character lists: the order SQLite's default
(binary) collation induces, since byte-wise UTF-8 comparison agrees with
code-point comparison. -/
def charListLe : List Char → List Char → Bool
  | [], _ => true
  | _ :: _, [] => false
  | c :: cs, d :: ds => if c = d then charListLe cs ds else decide (c < d)

/-- Plain string comparison, as SQLite compares TEXT values. -/
def strLe (a b : String) : Bool := charListLe a.data b.data

/-- `date BETWEEN ? AND ?` on raw strings: inclusive on both ends. -/
def dateBetween (d s e : String) : Bool :=
  strLe s d && strLe d e

/-- The rows the summarize query ranges over:
`WHERE date BETWEEN start_date AND end_date`. -/
def matchingRecords (st : Store) (s e : String) : List Record :=
  st.records.filter (fun r => dateBetween r.date s e)

/-- Add one amount into the per-category accumulator (the running state of
SQL `GROUP BY category` / `SUM(amount)`). -/
def addToGroups (cat : String) (amt : ℚ) : List (String × ℚ) → List (String × ℚ)
  | [] => [(cat, amt)]
  | (c, a) :: rest =>
      if c = cat then (c, a + amt) :: rest else (c, a) :: addToGroups cat amt rest

/-- `SELECT category, SUM(amount) ... GROUP BY category` over the given rows.
The spec (§4.6) leaves the row order of the grouping unspecified; the model
uses first-occurrence order of the categories. -/
def groupByCategory (rs : List Record) : List (String × ℚ) :=
  rs.foldl (fun g r => addToGroups r.category r.amount g) []

/-- Two-digit zero padding for the cents part. -/
def pad2 (m : Nat) : String :=
  if m < 10 then "0" ++ toString m else toString m

/-- The number of cents displayed for an amount `q`: the integer
`⌊100 * q + 1 / 2⌋`, computed on the numerator and denominator so that it
evaluates inside the kernel (see `cents_eq_floor`). -/
def cents (q : ℚ) : Int :=
  (200 * q.num + q.den).fdiv (2 * q.den)

/-- `f"{q:.2f}"`: fixed-point rendering with two digits after the point.
Ties round upward; they cannot arise from the binary doubles the Python
code formats. -/
def fmt2 (q : ℚ) : String :=
  let n : Int := cents q
  if n < 0 then "-" ++ toString (n.natAbs / 100) ++ "." ++ pad2 (n.natAbs % 100)
  else toString (n.toNat / 100) ++ "." ++ pad2 (n.toNat % 100)

/-- `cents` really is the floor of `100 * q + 1 / 2`. -/
theorem cents_eq_floor (q : ℚ) : cents q = ⌊q * 100 + 1 / 2⌋ := by
  have hq : q * 100 + 1 / 2 =
      (((200 * q.num + (q.den : ℤ)) : ℤ) : ℚ) / (((2 * q.den : ℕ) : ℕ) : ℚ) := by
    have hd : ((q.den : ℚ)) ≠ 0 := by exact_mod_cast q.den_nz
    conv_lhs => rw [← Rat.num_div_den q]
    push_cast
    field_simp
    ring
  rw [cents, hq, Rat.floor_intCast_div_natCast, Int.fdiv_eq_ediv _ (by positivity)]
  norm_num

/-- The `"-" * 50` separator rule. -/
def sepLine : String := String.mk (List.replicate 50 '-')

/-- `f"{category}: ${amount:.2f}\n"`, one line of the summary body. -/
def categoryLine (p : String × ℚ) : String :=
  p.1 ++ ": $" ++ fmt2 p.2 ++ "\n"

/-- The concatenation of the per-category lines, in grouping order. -/
def linesFor : List (String × ℚ) → String
  | [] => ""
  | p :: gs => categoryLine p ++ linesFor gs

/-- The sum of the per-category sums (the loop's `total`). -/
def sumSnd (gs : List (String × ℚ)) : ℚ := (gs.map Prod.snd).sum

/-- The literal returned when no rows match. -/
def noMatchMsg : String := "No expenses found in the specified date range."

/-- `summarize_expenses` (src/main.py:148-175): aggregate by category over
the inclusive date range, then format header, separator, one line per
category, separator and total. -/
def summarize_expenses (st : Store) (start_date end_date : String) : String :=
  let results := groupByCategory (matchingRecords st start_date end_date)
  if results.isEmpty then noMatchMsg
  else
    let init : String × ℚ :=
      ("Expense Summary (" ++ start_date ++ " to " ++ end_date ++ "):\n" ++
        sepLine ++ "\n", 0)
    let fin := results.foldl (fun acc p => (acc.1 ++ categoryLine p, acc.2 + p.2)) init
    fin.1 ++ sepLine ++ "\n" ++ "Total: $" ++ fmt2 fin.2

/-- Case-sensitive substring containment, stated on character lists:
`leadsWith nd s` says `nd` is an initial run of `s`. -/
def leadsWith : List Char → List Char → Bool
  | [], _ => true
  | _ :: _, [] => false
  | c :: cs, d :: ds => (c == d) && leadsWith cs ds

/-- `containsSeq nd hay`: some contiguous run of `hay` equals `nd`. -/
def containsSeq (nd : List Char) : List Char → Bool
  | [] => leadsWith nd []
  | d :: t => leadsWith nd (d :: t) || containsSeq nd t

/-- Modelled from the spec's words for the note filter ("substring filter,
case-sensitive containment"): `hay` contains `nd` with exact character
comparison. Used to compare the spec's description against the code. -/
def csContains (hay nd : String) : Bool :=
  containsSeq nd.data hay.data

/-- ASCII-case-insensitive substring containment: what `LIKE '%nd%'` computes
when `nd` holds no wildcard. -/
def ciContains (hay nd : String) : Bool :=
  containsSeq (nd.data.map asciiLower) (hay.data.map asciiLower)

/-! ### Well-formedness and the ordering of `list_expenses` results -/

/-- `idsAscending` is pairwise strict ascent of the rowids. -/
theorem idsAscending_iff (l : List Record) :
    idsAscending l = true ↔ l.Pairwise (fun a b => a.id < b.id) := by
  induction l with
  | nil => simp [idsAscending]
  | cons a l ih =>
    cases l with
    | nil => simp [idsAscending]
    | cons b t =>
      rw [idsAscending]
      simp only [Bool.and_eq_true, decide_eq_true_eq, ih, List.pairwise_cons] at *
      constructor
      · rintro ⟨hab, hb, ht⟩
        refine ⟨fun x hx => ?_, hb, ht⟩
        rcases List.mem_cons.1 hx with rfl | hx
        · exact hab
        · exact lt_trans hab (hb x hx)
      · rintro ⟨ha, hb, ht⟩
        exact ⟨ha b (List.mem_cons_self b t), hb, ht⟩

/-- A well-formed store's rows are pairwise strictly ascending in rowid. -/
theorem Store.WF.pairwise {st : Store} (h : st.WF) :
    st.records.Pairwise (fun a b => a.id < b.id) :=
  (idsAscending_iff _).1 h.1

/-- `ORDER BY id ASC` leaves a list that already ascends in id unchanged. -/
theorem insertionSort_eq_of_pairwise (l : List Record)
    (h : l.Pairwise (fun a b => a.id < b.id)) :
    List.insertionSort (fun a b => a.id ≤ b.id) l = l :=
  List.Sorted.insertionSort_eq (h.imp fun hab => le_of_lt hab)

/-- On a well-formed store, `list_expenses` is just filter-then-render:
the `ORDER BY` is the identity because the table already ascends in id. -/
theorem list_expenses_eq (st : Store) (hwf : st.WF) (subcategory note : String) :
    list_expenses st subcategory note =
      (st.records.filter (fun r => subcatPass subcategory r && notePass note r)).map
        rowToDict := by
  unfold list_expenses
  rw [insertionSort_eq_of_pairwise _ (hwf.pairwise.sublist (List.filter_sublist _))]

/-- The unfiltered call keeps every row. -/
theorem list_expenses_no_filters (st : Store) (hwf : st.WF) :
    list_expenses st "" "" = st.records.map rowToDict := by
  rw [list_expenses_eq st hwf]
  simp [subcatPass, notePass]

/-- The id of a rendered row is the record's id. -/
theorem rowIdNat_rowToDict (r : Record) : rowIdNat (rowToDict r) = r.id := rfl

/-! ### The `GROUP BY category` aggregation -/

/-- The categories present in the accumulator. -/
def gKeys (g : List (String × ℚ)) : List String := g.map Prod.fst

/-- The amount the accumulator records for category `c` (0 when absent). -/
def amtFor (c : String) (g : List (String × ℚ)) : ℚ :=
  ((g.filter (fun p => decide (p.1 = c))).map Prod.snd).sum

/-- The sum of the amounts of the rows of category `c`. -/
def catSum (c : String) (rs : List Record) : ℚ :=
  ((rs.filter (fun r => decide (r.category = c))).map Record.amount).sum

theorem gKeys_nil : gKeys [] = [] := rfl

theorem gKeys_cons (k : String) (v : ℚ) (g : List (String × ℚ)) :
    gKeys ((k, v) :: g) = k :: gKeys g := rfl

theorem amtFor_nil (c : String) : amtFor c [] = 0 := rfl

theorem amtFor_cons (c k : String) (v : ℚ) (g : List (String × ℚ)) :
    amtFor c ((k, v) :: g) = (if k = c then v else 0) + amtFor c g := by
  by_cases h : k = c <;> simp [amtFor, h]

theorem catSum_nil (c : String) : catSum c [] = 0 := rfl

theorem catSum_cons (c : String) (r : Record) (rs : List Record) :
    catSum c (r :: rs) = (if r.category = c then r.amount else 0) + catSum c rs := by
  by_cases h : r.category = c <;> simp [catSum, h]

theorem amtFor_addToGroups (c cat : String) (amt : ℚ) (g : List (String × ℚ)) :
    amtFor c (addToGroups cat amt g) = amtFor c g + if cat = c then amt else 0 := by
  induction g with
  | nil => by_cases h : cat = c <;> simp [addToGroups, amtFor_cons, amtFor_nil, h]
  | cons p g ih =>
    obtain ⟨k, v⟩ := p
    rw [addToGroups]
    by_cases h1 : k = cat
    · subst h1
      rw [if_pos rfl, amtFor_cons, amtFor_cons]
      by_cases h2 : k = c
      · rw [if_pos h2, if_pos h2, if_pos h2]
        ring
      · rw [if_neg h2, if_neg h2, if_neg h2]
        ring
    · rw [if_neg h1, amtFor_cons, amtFor_cons, ih]
      ring

theorem mem_gKeys_addToGroups (x cat : String) (amt : ℚ) (g : List (String × ℚ)) :
    x ∈ gKeys (addToGroups cat amt g) ↔ x ∈ gKeys g ∨ x = cat := by
  induction g with
  | nil => simp [addToGroups, gKeys]
  | cons p g ih =>
    obtain ⟨k, v⟩ := p
    rw [addToGroups]
    by_cases h1 : k = cat
    · subst h1
      rw [if_pos rfl]
      simp only [gKeys_cons, List.mem_cons]
      tauto
    · rw [if_neg h1]
      simp only [gKeys_cons, List.mem_cons] at *
      rw [ih]
      tauto

theorem nodup_gKeys_addToGroups (cat : String) (amt : ℚ) (g : List (String × ℚ))
    (h : (gKeys g).Nodup) : (gKeys (addToGroups cat amt g)).Nodup := by
  induction g with
  | nil => simp [addToGroups, gKeys]
  | cons p g ih =>
    obtain ⟨k, v⟩ := p
    simp only [gKeys, List.map_cons, List.nodup_cons] at h
    rw [addToGroups]
    by_cases h1 : k = cat
    · subst h1
      simpa [gKeys, List.nodup_cons] using h
    · rw [if_neg h1]
      simp only [gKeys, List.map_cons, List.nodup_cons]
      refine ⟨fun hk => ?_, ih h.2⟩
      rcases (mem_gKeys_addToGroups k cat amt g).1 hk with hx | rfl
      · exact h.1 hx
      · exact h1 rfl

theorem amtFor_foldl (c : String) (rs : List Record) :
    ∀ g, amtFor c (rs.foldl (fun g r => addToGroups r.category r.amount g) g) =
      amtFor c g + catSum c rs := by
  induction rs with
  | nil => intro g; simp [catSum_nil]
  | cons r rs ih =>
    intro g
    rw [List.foldl_cons, ih, amtFor_addToGroups, catSum_cons]
    ring

theorem mem_gKeys_foldl (x : String) (rs : List Record) :
    ∀ g, x ∈ gKeys (rs.foldl (fun g r => addToGroups r.category r.amount g) g) ↔
      x ∈ gKeys g ∨ ∃ r ∈ rs, r.category = x := by
  induction rs with
  | nil => intro g; simp
  | cons r rs ih =>
    intro g
    rw [List.foldl_cons, ih, mem_gKeys_addToGroups]
    simp only [List.mem_cons]
    constructor
    · rintro ((hx | rfl) | ⟨r', hr', rfl⟩)
      · exact Or.inl hx
      · exact Or.inr ⟨r, Or.inl rfl, rfl⟩
      · exact Or.inr ⟨r', Or.inr hr', rfl⟩
    · rintro (hx | ⟨r', (rfl | hr'), rfl⟩)
      · exact Or.inl (Or.inl hx)
      · exact Or.inl (Or.inr rfl)
      · exact Or.inr ⟨r', hr', rfl⟩

theorem nodup_gKeys_foldl (rs : List Record) :
    ∀ g, (gKeys g).Nodup →
      (gKeys (rs.foldl (fun g r => addToGroups r.category r.amount g) g)).Nodup := by
  induction rs with
  | nil => intro g h; exact h
  | cons r rs ih =>
    intro g h
    exact ih _ (nodup_gKeys_addToGroups _ _ _ h)

theorem amtFor_groupByCategory (c : String) (rs : List Record) :
    amtFor c (groupByCategory rs) = catSum c rs := by
  rw [groupByCategory, amtFor_foldl, amtFor_nil, zero_add]

theorem mem_gKeys_groupByCategory (x : String) (rs : List Record) :
    x ∈ gKeys (groupByCategory rs) ↔ ∃ r ∈ rs, r.category = x := by
  rw [groupByCategory, mem_gKeys_foldl]
  simp [gKeys]

theorem nodup_gKeys_groupByCategory (rs : List Record) :
    (gKeys (groupByCategory rs)).Nodup := by
  rw [groupByCategory]
  exact nodup_gKeys_foldl rs [] (by simp [gKeys])

theorem amtFor_eq_zero_of_not_mem (c : String) (g : List (String × ℚ))
    (h : c ∉ gKeys g) : amtFor c g = 0 := by
  induction g with
  | nil => rfl
  | cons p g ih =>
    obtain ⟨k, v⟩ := p
    simp only [gKeys_cons, List.mem_cons] at h
    push_neg at h
    rw [amtFor_cons, if_neg (fun hk => h.1 hk.symm), ih h.2, zero_add]

theorem mem_iff_of_nodup_gKeys (c : String) (q : ℚ) (g : List (String × ℚ))
    (h : (gKeys g).Nodup) : (c, q) ∈ g ↔ c ∈ gKeys g ∧ q = amtFor c g := by
  induction g with
  | nil => simp [gKeys]
  | cons p g ih =>
    obtain ⟨k, v⟩ := p
    rw [gKeys_cons, List.nodup_cons] at h
    rw [amtFor_cons, gKeys_cons, List.mem_cons, List.mem_cons]
    simp only [Prod.mk.injEq]
    by_cases hkc : k = c
    · subst hkc
      rw [if_pos rfl, amtFor_eq_zero_of_not_mem k g h.1, add_zero]
      have hnot : (k, q) ∉ g := fun hm => h.1 (List.mem_map.2 ⟨(k, q), hm, rfl⟩)
      constructor
      · rintro (⟨_, rfl⟩ | hm)
        · exact ⟨Or.inl rfl, rfl⟩
        · exact absurd hm hnot
      · rintro ⟨_, rfl⟩
        exact Or.inl ⟨rfl, rfl⟩
    · rw [if_neg hkc, zero_add, ih h.2]
      constructor
      · rintro (⟨rfl, rfl⟩ | ⟨hm, rfl⟩)
        · exact absurd rfl hkc
        · exact ⟨Or.inr hm, rfl⟩
      · rintro ⟨(rfl | hm), rfl⟩
        · exact absurd rfl hkc
        · exact Or.inr ⟨hm, rfl⟩

/-- Full characterisation of the grouping: `(c, q)` is an entry exactly
when some row has category `c` and `q` is the sum of those rows' amounts. -/
theorem mem_groupByCategory_iff (c : String) (q : ℚ) (rs : List Record) :
    (c, q) ∈ groupByCategory rs ↔ (∃ r ∈ rs, r.category = c) ∧ q = catSum c rs := by
  rw [mem_iff_of_nodup_gKeys c q _ (nodup_gKeys_groupByCategory rs),
    mem_gKeys_groupByCategory, amtFor_groupByCategory]

theorem sumSnd_addToGroups (cat : String) (amt : ℚ) (g : List (String × ℚ)) :
    sumSnd (addToGroups cat amt g) = sumSnd g + amt := by
  induction g with
  | nil => simp [addToGroups, sumSnd]
  | cons p g ih =>
    obtain ⟨k, v⟩ := p
    rw [addToGroups]
    by_cases h1 : k = cat
    · subst h1
      simp [sumSnd]
      ring
    · rw [if_neg h1]
      simp only [sumSnd, List.map_cons, List.sum_cons] at *
      rw [ih]
      ring

theorem sumSnd_foldl (rs : List Record) :
    ∀ g, sumSnd (rs.foldl (fun g r => addToGroups r.category r.amount g) g) =
      sumSnd g + (rs.map Record.amount).sum := by
  induction rs with
  | nil => intro g; simp
  | cons r rs ih =>
    intro g
    rw [List.foldl_cons, ih, sumSnd_addToGroups]
    simp only [List.map_cons, List.sum_cons]
    ring

/-- The total the loop accumulates equals the sum of all matching amounts. -/
theorem sumSnd_groupByCategory (rs : List Record) :
    sumSnd (groupByCategory rs) = (rs.map Record.amount).sum := by
  rw [groupByCategory, sumSnd_foldl]
  simp [sumSnd]

theorem groupByCategory_eq_nil_iff (rs : List Record) :
    groupByCategory rs = [] ↔ rs = [] := by
  constructor
  · intro h
    cases rs with
    | nil => rfl
    | cons r rs =>
      have : r.category ∈ gKeys (groupByCategory (r :: rs)) :=
        (mem_gKeys_groupByCategory _ _).2 ⟨r, List.mem_cons_self r rs, rfl⟩
      rw [h] at this
      simp [gKeys] at this
  · rintro rfl
    rfl

/-! ### The summary string -/

theorem summarize_foldl (gs : List (String × ℚ)) :
    ∀ (s : String) (t : ℚ),
      gs.foldl (fun acc p => (acc.1 ++ categoryLine p, acc.2 + p.2)) (s, t) =
        (s ++ linesFor gs, t + sumSnd gs) := by
  induction gs with
  | nil =>
    intro s t
    simp [linesFor, sumSnd]
  | cons p gs ih =>
    intro s t
    rw [List.foldl_cons, ih]
    rw [linesFor]
    refine Prod.ext ?_ ?_
    · simp [String.append_assoc]
    · simp [sumSnd]
      ring

/-- A row is among the aggregated rows exactly when it is in the table and
its date lies in the inclusive range. -/
theorem mem_matchingRecords (st : Store) (s e : String) (r : Record) :
    r ∈ matchingRecords st s e ↔
      r ∈ st.records ∧ strLe s r.date = true ∧ strLe r.date e = true := by
  rw [matchingRecords, List.mem_filter, dateBetween, Bool.and_eq_true]

/-! ### `LIKE` pattern facts -/

theorem likeTail_of (f : List Char → Bool) (s : List Char) (h : f s = true) :
    likeTail f s = true := by
  cases s <;> simp [likeTail, h]

theorem likeTail_cons_of (f : List Char → Bool) (d : Char) (t : List Char)
    (h : likeTail f t = true) : likeTail f (d :: t) = true := by
  simp [likeTail, h]

theorem likeMatch_cons_nil (c : Char) (p : List Char) :
    likeMatch (c :: p) [] =
      if c = '%' then likeTail (likeMatch p) [] else false := rfl

theorem likeMatch_cons_cons (c d : Char) (p t : List Char) :
    likeMatch (c :: p) (d :: t) =
      if c = '%' then likeTail (likeMatch p) (d :: t)
      else (if c = '_' then true else asciiLower c == asciiLower d) && likeMatch p t := rfl

theorem likeMatch_pct (p : List Char) (s : List Char) :
    likeMatch ('%' :: p) s = likeTail (likeMatch p) s := by
  cases s with
  | nil => rw [likeMatch_cons_nil, if_pos rfl]
  | cons d t => rw [likeMatch_cons_cons, if_pos rfl]

/-- A pattern made of literal characters followed by `%` matches the strings
that start with those characters, up to ASCII case. -/
theorem likeMatch_lit (p : List Char) (hp : ∀ c ∈ p, c ≠ '%' ∧ c ≠ '_') :
    ∀ s, likeMatch (p ++ ['%']) s = leadsWith (p.map asciiLower) (s.map asciiLower) := by
  induction p with
  | nil =>
    have aux : ∀ s, likeTail (likeMatch []) s = true := by
      intro s
      induction s with
      | nil => rfl
      | cons d t ih => simp [likeTail, ih]
    intro s
    rw [List.nil_append, likeMatch_pct, aux s]
    rfl
  | cons c p ih =>
    intro s
    have hc := hp c (List.mem_cons_self c p)
    have hp' : ∀ x ∈ p, x ≠ '%' ∧ x ≠ '_' := fun x hx => hp x (List.mem_cons_of_mem c hx)
    rw [List.cons_append]
    cases s with
    | nil => rw [likeMatch_cons_nil, if_neg hc.1]; rfl
    | cons d t =>
      rw [likeMatch_cons_cons, if_neg hc.1, List.map_cons, List.map_cons, leadsWith,
        ← ih hp' t, if_neg hc.2]

/-- `LIKE '%p%'` with a wildcard-free needle `p` is ASCII-case-insensitive
substring containment. -/
theorem likeMatch_contains (p : List Char) (hp : ∀ c ∈ p, c ≠ '%' ∧ c ≠ '_') :
    ∀ s, likeMatch ('%' :: (p ++ ['%'])) s =
      containsSeq (p.map asciiLower) (s.map asciiLower) := by
  intro s
  rw [likeMatch_pct]
  induction s with
  | nil =>
    rw [likeTail, likeMatch_lit p hp []]
    rfl
  | cons d t ih =>
    rw [likeTail, likeMatch_lit p hp (d :: t), List.map_cons, containsSeq, ih]

/-- Any pattern followed by `%` matches its own character list. -/
theorem likeMatch_lit_self : ∀ q : List Char, likeMatch (q ++ ['%']) q = true := by
  intro q
  induction q with
  | nil => rfl
  | cons c q ih =>
    rw [List.cons_append, likeMatch_cons_cons]
    by_cases hc : c = '%'
    · rw [if_pos hc]
      exact likeTail_cons_of _ _ _ (likeTail_of _ _ ih)
    · rw [if_neg hc]
      by_cases hu : c = '_'
      · simp [hu, ih]
      · simp [hu, ih]

/-- `LIKE '%n%'` always matches `n` itself, wildcards or not. -/
theorem likeMatch_self (p : List Char) :
    likeMatch ('%' :: (p ++ ['%'])) p = true := by
  rw [likeMatch_pct]
  exact likeTail_of _ _ (likeMatch_lit_self p)

/-! ### Preservation of the table invariants -/

theorem applyUpd_id (i : Nat) (d nm : String) (a : ℚ) (c sc nt : String) (r : Record) :
    (applyUpd i d nm a c sc nt r).id = r.id := by
  unfold applyUpd
  split <;> rfl

theorem add_expense_WF (st : Store) (hwf : st.WF) (d nm : String) (a : ℚ)
    (c sc nt : String) : ((add_expense st d nm a c sc nt).2).WF := by
  obtain ⟨h1, h2⟩ := hwf
  constructor
  · rw [idsAscending_iff]
    simp only [add_expense]
    refine List.pairwise_append.2 ⟨(idsAscending_iff _).1 h1, List.pairwise_singleton _ _, ?_⟩
    intro x hx y hy
    simp only [List.mem_singleton] at hy
    subst hy
    exact h2 x hx
  · intro r hr
    simp only [add_expense, List.mem_append, List.mem_singleton] at hr
    rcases hr with hr | rfl
    · exact Nat.lt_succ_of_lt (h2 r hr)
    · exact Nat.lt_succ_self _

theorem update_expense_WF (st : Store) (hwf : st.WF) (i : Nat) (d nm : String) (a : ℚ)
    (c sc nt : String) : ((update_expense st i d nm a c sc nt).2).WF := by
  obtain ⟨h1, h2⟩ := hwf
  constructor
  · rw [idsAscending_iff]
    simp only [update_expense]
    rw [List.pairwise_map]
    exact ((idsAscending_iff _).1 h1).imp fun hab => by
      rwa [applyUpd_id, applyUpd_id]
  · intro r hr
    simp only [update_expense] at hr
    obtain ⟨r0, hr0, rfl⟩ := List.mem_map.1 hr
    rw [applyUpd_id]
    exact h2 r0 hr0

/-! ### Claim theorems -/

/-- C3: if no record's date lies in the inclusive string range, the summary
is exactly the literal no-match sentence. -/
theorem summarize_expenses_no_match (st : Store) (s e : String)
    (h : ∀ r ∈ st.records, dateBetween r.date s e = false) :
    summarize_expenses st s e = "No expenses found in the specified date range." := by
  have hm : matchingRecords st s e = [] := by
    rw [matchingRecords, List.filter_eq_nil_iff]
    intro r hr
    rw [h r hr]
    exact Bool.false_ne_true
  rw [summarize_expenses, hm]
  rfl

/-- Store used in the C3 witness: one record dated outside the range. -/
def outsideStore : Store :=
  { records := [{ id := 1, date := "2024-05-05", name := "coffee", amount := 3,
                  category := "Food", subcategory := "", note := "" }],
    nextId := 2 }

theorem summarize_expenses_no_match_witness :
    (∀ r ∈ outsideStore.records, dateBetween r.date "2023-01-01" "2023-12-31" = false) ∧
    summarize_expenses outsideStore "2023-01-01" "2023-12-31" =
      "No expenses found in the specified date range." :=
  ⟨by decide, summarize_expenses_no_match outsideStore "2023-01-01" "2023-12-31" (by decide)⟩

theorem strLe_refl (a : String) : strLe a a = true := by
  rw [strLe]
  induction a.data with
  | nil => rfl
  | cons c cs ih => rw [charListLe, if_pos rfl, ih]

/-- C4: a record enters the summarize aggregation exactly when
`start_date <= date <= end_date` under plain string comparison; in
particular a record dated exactly at either boundary (with a non-empty
range) is aggregated. -/
theorem summarize_between_inclusive (st : Store) (s e : String) (r : Record)
    (hr : r ∈ st.records) :
    (r ∈ matchingRecords st s e ↔ strLe s r.date = true ∧ strLe r.date e = true) ∧
    (r.date = s → strLe s e = true → r ∈ matchingRecords st s e) ∧
    (r.date = e → strLe s e = true → r ∈ matchingRecords st s e) := by
  refine ⟨?_, ?_, ?_⟩
  · rw [mem_matchingRecords]
    exact ⟨fun hh => ⟨hh.2.1, hh.2.2⟩, fun hh => ⟨hr, hh.1, hh.2⟩⟩
  · intro hds hse
    refine (mem_matchingRecords st s e r).2 ⟨hr, ?_, ?_⟩
    · rw [hds]; exact strLe_refl s
    · rw [hds]; exact hse
  · intro hde hse
    refine (mem_matchingRecords st s e r).2 ⟨hr, ?_, ?_⟩
    · rw [hde]; exact hse
    · rw [hde]; exact strLe_refl e

/-- Store used in the C4 witness: records dated exactly on each boundary. -/
def boundaryStore : Store :=
  { records := [{ id := 1, date := "2024-01-01", name := "a", amount := 1,
                  category := "Food", subcategory := "", note := "" },
                { id := 2, date := "2024-02-01", name := "b", amount := 2,
                  category := "Food", subcategory := "", note := "" }],
    nextId := 3 }

theorem summarize_between_inclusive_witness :
    ({ id := 1, date := "2024-01-01", name := "a", amount := 1, category := "Food",
       subcategory := "", note := "" } : Record) ∈ boundaryStore.records ∧
    (({ id := 1, date := "2024-01-01", name := "a", amount := 1, category := "Food",
        subcategory := "", note := "" } : Record) ∈
          matchingRecords boundaryStore "2024-01-01" "2024-02-01" ↔
        strLe "2024-01-01" "2024-01-01" = true ∧ strLe "2024-01-01" "2024-02-01" = true) ∧
    ("2024-01-01" = "2024-01-01" → strLe "2024-01-01" "2024-02-01" = true →
      ({ id := 1, date := "2024-01-01", name := "a", amount := 1, category := "Food",
         subcategory := "", note := "" } : Record) ∈
        matchingRecords boundaryStore "2024-01-01" "2024-02-01") ∧
    ("2024-01-01" = "2024-02-01" → strLe "2024-01-01" "2024-02-01" = true →
      ({ id := 1, date := "2024-01-01", name := "a", amount := 1, category := "Food",
         subcategory := "", note := "" } : Record) ∈
        matchingRecords boundaryStore "2024-01-01" "2024-02-01") :=
  ⟨by decide, summarize_between_inclusive boundaryStore "2024-01-01" "2024-02-01" _ (by decide)⟩

/-- C6: updating an id that no row carries still answers `{"status": "OK"}`
and leaves the table exactly as it was. -/
theorem update_expense_missing_id (st : Store) (i : Nat) (d nm : String) (a : ℚ)
    (c sc nt : String) (h : ∀ r ∈ st.records, r.id ≠ i) :
    update_expense st i d nm a c sc nt = ({ status := "OK" }, st) := by
  unfold update_expense
  have hrec : st.records.map (applyUpd i d nm a c sc nt) = st.records := by
    have : ∀ r ∈ st.records, applyUpd i d nm a c sc nt r = id r := by
      intro r hr
      unfold applyUpd
      rw [if_neg (h r hr)]
      rfl
    rw [List.map_congr_left this, List.map_id]
  rw [hrec]

/-- Store used in the C6 witness. -/
def missStore : Store :=
  { records := [{ id := 1, date := "2024-01-01", name := "a", amount := 1,
                  category := "Food", subcategory := "", note := "" }],
    nextId := 2 }

theorem update_expense_missing_id_witness :
    (∀ r ∈ missStore.records, r.id ≠ 7) ∧
    update_expense missStore 7 "2025-01-01" "b" 2 "Travel" "" "" =
      ({ status := "OK" }, missStore) :=
  ⟨by decide, update_expense_missing_id missStore 7 "2025-01-01" "b" 2 "Travel" "" "" (by decide)⟩

/-- C7: delete removes exactly the rows carrying the given id and keeps every
other row; deleting an absent id returns normally with the store unchanged. -/
theorem delete_expense_spec (st : Store) (i : Nat) :
    ((delete_expense st i).records = st.records.filter (fun r => decide (r.id ≠ i))) ∧
    (∀ r ∈ st.records, r.id ≠ i → r ∈ (delete_expense st i).records) ∧
    (∀ r ∈ (delete_expense st i).records, r.id ≠ i ∧ r ∈ st.records) ∧
    ((delete_expense st i).nextId = st.nextId) ∧
    ((∀ r ∈ st.records, r.id ≠ i) → delete_expense st i = st) := by
  refine ⟨rfl, ?_, ?_, rfl, ?_⟩
  · intro r hr hne
    exact List.mem_filter.2 ⟨hr, decide_eq_true hne⟩
  · intro r hr
    have hh := List.mem_filter.1 hr
    exact ⟨of_decide_eq_true hh.2, hh.1⟩
  · intro h
    unfold delete_expense
    have : st.records.filter (fun r => decide (r.id ≠ i)) = st.records :=
      List.filter_eq_self.2 fun r hr => decide_eq_true (h r hr)
    rw [this]

/-- Store used in the C7 witness. -/
def delStore : Store :=
  { records := [{ id := 1, date := "2024-01-01", name := "a", amount := 1,
                  category := "Food", subcategory := "", note := "" },
                { id := 2, date := "2024-01-02", name := "b", amount := 2,
                  category := "Travel", subcategory := "", note := "" }],
    nextId := 3 }

theorem delete_expense_spec_witness :
    ((delete_expense delStore 9).records =
      delStore.records.filter (fun r => decide (r.id ≠ 9))) ∧
    (∀ r ∈ delStore.records, r.id ≠ 9) ∧
    delete_expense delStore 9 = delStore :=
  ⟨(delete_expense_spec delStore 9).1, by decide,
    (delete_expense_spec delStore 9).2.2.2.2 (by decide)⟩

/-- Claim C8: adding an expense answers OK with the fresh AUTOINCREMENT id,
and a subsequent unfiltered list shows the prior rows followed by exactly
one new row whose fields equal the inputs; the new id differs from every
id in the prior store, and the invariants are preserved. -/
theorem add_expense_then_list (st : Store) (hwf : st.WF) (d nm : String) (a : ℚ)
    (c sc nt : String) :
    (add_expense st d nm a c sc nt).1 = { status := "OK", id := st.nextId } ∧
    list_expenses (add_expense st d nm a c sc nt).2 "" "" =
      list_expenses st "" "" ++
        [rowToDict { id := st.nextId, date := d, name := nm, amount := a,
                     category := c, subcategory := sc, note := nt }] ∧
    (∀ r ∈ st.records, r.id ≠ (add_expense st d nm a c sc nt).1.id) ∧
    ((add_expense st d nm a c sc nt).2).WF := by
  refine ⟨rfl, ?_, ?_, add_expense_WF st hwf d nm a c sc nt⟩
  · rw [list_expenses_no_filters _ (add_expense_WF st hwf d nm a c sc nt),
      list_expenses_no_filters _ hwf]
    simp only [add_expense, List.map_append, List.map_cons, List.map_nil]
  · intro r hr
    exact Nat.ne_of_lt (hwf.2 r hr)

/-- Store used in the C8 witness. -/
def addStore : Store :=
  { records := [{ id := 1, date := "2024-01-01", name := "a", amount := 1,
                  category := "Food", subcategory := "", note := "" },
                { id := 4, date := "2024-01-02", name := "b", amount := 2,
                  category := "Travel", subcategory := "", note := "" }],
    nextId := 5 }

theorem add_expense_then_list_witness :
    addStore.WF ∧
    (add_expense addStore "2024-03-01" "gas" 30 "Auto" "" "").1 =
      { status := "OK", id := 5 } ∧
    ∀ r ∈ addStore.records,
      r.id ≠ (add_expense addStore "2024-03-01" "gas" 30 "Auto" "" "").1.id :=
  ⟨by decide,
    (add_expense_then_list addStore (by decide) "2024-03-01" "gas" 30 "Auto" "" "").1,
    (add_expense_then_list addStore (by decide) "2024-03-01" "gas" 30 "Auto" "" "").2.2.1⟩

/-- Claim C9: updating an existing id replaces all six non-id fields under
that id, keeps every other row unchanged, and a subsequent list renders the
table so only the updated values appear under that id. -/
theorem update_expense_existing (st : Store) (hwf : st.WF) (i : Nat) (d nm : String)
    (a : ℚ) (c sc nt : String) (hex : ∃ r ∈ st.records, r.id = i) :
    (update_expense st i d nm a c sc nt).1 = { status := "OK" } ∧
    (∃ r ∈ (update_expense st i d nm a c sc nt).2.records,
      r = { id := i, date := d, name := nm, amount := a, category := c,
            subcategory := sc, note := nt }) ∧
    (∀ r ∈ (update_expense st i d nm a c sc nt).2.records, r.id = i →
      r = { id := i, date := d, name := nm, amount := a, category := c,
            subcategory := sc, note := nt }) ∧
    (∀ r ∈ st.records, r.id ≠ i → r ∈ (update_expense st i d nm a c sc nt).2.records) ∧
    (∀ r ∈ (update_expense st i d nm a c sc nt).2.records, r.id ≠ i → r ∈ st.records) ∧
    list_expenses (update_expense st i d nm a c sc nt).2 "" "" =
      ((update_expense st i d nm a c sc nt).2.records).map rowToDict ∧
    ((update_expense st i d nm a c sc nt).2).WF := by
  have hwf' := update_expense_WF st hwf i d nm a c sc nt
  refine ⟨rfl, ?_, ?_, ?_, ?_, list_expenses_no_filters _ hwf', hwf'⟩
  · obtain ⟨r, hr, hid⟩ := hex
    refine ⟨applyUpd i d nm a c sc nt r, ?_, ?_⟩
    · simp only [update_expense]
      exact List.mem_map_of_mem _ hr
    · unfold applyUpd
      rw [if_pos hid, hid]
  · intro r hr hid
    simp only [update_expense] at hr
    obtain ⟨r0, hr0, rfl⟩ := List.mem_map.1 hr
    by_cases h0 : r0.id = i
    · unfold applyUpd
      rw [if_pos h0, h0]
    · rw [applyUpd_id] at hid
      exact absurd hid h0
  · intro r hr hne
    have heq : applyUpd i d nm a c sc nt r = r := by
      unfold applyUpd
      rw [if_neg hne]
    simp only [update_expense]
    exact heq ▸ List.mem_map_of_mem _ hr
  · intro r hr hne
    simp only [update_expense] at hr
    obtain ⟨r0, hr0, rfl⟩ := List.mem_map.1 hr
    by_cases h0 : r0.id = i
    · rw [applyUpd_id] at hne
      exact absurd h0 hne
    · have heq : applyUpd i d nm a c sc nt r0 = r0 := by
        unfold applyUpd
        rw [if_neg h0]
      rw [heq]
      exact hr0

/-- Store used in the C9 witness. -/
def updStore : Store :=
  { records := [{ id := 1, date := "2024-01-01", name := "a", amount := 1,
                  category := "Food", subcategory := "s", note := "n" },
                { id := 2, date := "2024-01-02", name := "b", amount := 2,
                  category := "Travel", subcategory := "", note := "" }],
    nextId := 3 }

theorem update_expense_existing_witness :
    updStore.WF ∧ (∃ r ∈ updStore.records, r.id = 1) ∧
    (∃ r ∈ (update_expense updStore 1 "2025-05-05" "z" 9 "Misc" "m" "q").2.records,
      r = { id := 1, date := "2025-05-05", name := "z", amount := 9, category := "Misc",
            subcategory := "m", note := "q" }) ∧
    (∀ r ∈ (update_expense updStore 1 "2025-05-05" "z" 9 "Misc" "m" "q").2.records,
      r.id = 1 →
        r = { id := 1, date := "2025-05-05", name := "z", amount := 9, category := "Misc",
              subcategory := "m", note := "q" }) :=
  ⟨by decide, by decide,
    (update_expense_existing updStore (by decide) 1 "2025-05-05" "z" 9 "Misc" "m" "q"
      (by decide)).2.1,
    (update_expense_existing updStore (by decide) 1 "2025-05-05" "z" 9 "Misc" "m" "q"
      (by decide)).2.2.1⟩

/-- Claim C5: a non-empty subcategory filter keeps exactly the rows whose
subcategory equals it; the fully unfiltered call returns every row; and
every result of `list_expenses` ascends strictly in the `id` column, each
row a field-name-to-value mapping. -/
theorem list_expenses_subcategory_spec (st : Store) (hwf : st.WF) (s : String)
    (hs : s ≠ "") :
    list_expenses st s "" =
      (st.records.filter (fun r => decide (r.subcategory = s))).map rowToDict ∧
    list_expenses st "" "" = st.records.map rowToDict ∧
    ∀ sub nt, (list_expenses st sub nt).Pairwise (fun x y => rowIdNat x < rowIdNat y) := by
  refine ⟨?_, list_expenses_no_filters st hwf, ?_⟩
  · rw [list_expenses_eq st hwf]
    congr 1
    apply List.filter_congr
    intro r hr
    rw [subcatPass, if_neg hs, notePass, if_pos rfl, Bool.and_true]
  · intro sub nt
    rw [list_expenses_eq st hwf, List.pairwise_map]
    exact (hwf.pairwise.sublist (List.filter_sublist _)).imp fun hab => by
      rwa [rowIdNat_rowToDict, rowIdNat_rowToDict]

/-- Store used in the C5 witness. -/
def subStore : Store :=
  { records := [{ id := 1, date := "2024-01-01", name := "a", amount := 1,
                  category := "Food", subcategory := "x", note := "" },
                { id := 2, date := "2024-01-02", name := "b", amount := 2,
                  category := "Food", subcategory := "y", note := "" }],
    nextId := 3 }

theorem list_expenses_subcategory_spec_witness :
    subStore.WF ∧ ("x" : String) ≠ "" ∧
    list_expenses subStore "x" "" =
      (subStore.records.filter (fun r => decide (r.subcategory = "x"))).map rowToDict ∧
    list_expenses subStore "" "" = subStore.records.map rowToDict :=
  ⟨by decide, by decide,
    (list_expenses_subcategory_spec subStore (by decide) "x" (by decide)).1,
    (list_expenses_subcategory_spec subStore (by decide) "x" (by decide)).2.1⟩

/-- Store used in the C2 counterexample and witness: the note is upper-case
while the filter is lower-case. -/
def noteCxStore : Store :=
  { records := [{ id := 1, date := "2024-01-01", name := "a", amount := 1,
                  category := "Food", subcategory := "", note := "FOOD" }],
    nextId := 2 }

/-- Claim C2 counterexample: the code's `LIKE '%food%'` matches the note
"FOOD", so the result is not the case-sensitive-containment selection the
claim describes (which would be empty here). -/
theorem list_expenses_note_cs_counterexample :
    list_expenses noteCxStore "" "food" ≠
      (noteCxStore.records.filter (fun r => csContains r.note "food")).map rowToDict := by
  decide

/-- Claim C2 as amended: for a non-empty filter free of the `LIKE` wildcards
`%` and `_`, `list_expenses` keeps exactly the rows whose note contains the
filter as a substring under ASCII-case-insensitive comparison; an empty
filter imposes no constraint. -/
theorem list_expenses_note_ci (st : Store) (hwf : st.WF) (n : String) (hn : n ≠ "")
    (hw : ∀ c ∈ n.data, c ≠ '%' ∧ c ≠ '_') :
    list_expenses st "" n =
      (st.records.filter (fun r => ciContains r.note n)).map rowToDict ∧
    list_expenses st "" "" = st.records.map rowToDict := by
  refine ⟨?_, list_expenses_no_filters st hwf⟩
  rw [list_expenses_eq st hwf]
  congr 1
  apply List.filter_congr
  intro r hr
  rw [subcatPass, if_pos rfl, Bool.true_and, notePass, if_neg hn,
    likeMatch_contains n.data hw r.note.data]
  rfl

theorem list_expenses_note_ci_witness :
    noteCxStore.WF ∧ ("food" : String) ≠ "" ∧
    (∀ c ∈ ("food" : String).data, c ≠ '%' ∧ c ≠ '_') ∧
    list_expenses noteCxStore "" "food" =
      (noteCxStore.records.filter (fun r => ciContains r.note "food")).map rowToDict :=
  ⟨by decide, by decide, by decide,
    (list_expenses_note_ci noteCxStore (by decide) "food" (by decide) (by decide)).1⟩

/-- A one-row store whose row has a non-empty subcategory and an arbitrary
note; used to refute uniform selectability of empty-subcategory rows. -/
def oneRowNoteStore (nt : String) : Store :=
  { records := [{ id := 1, date := "d", name := "n", amount := 1,
                  category := "c", subcategory := "x", note := nt }],
    nextId := 2 }

theorem oneRowNoteStore_WF (nt : String) : (oneRowNoteStore nt).WF := by
  refine ⟨rfl, fun r hr => ?_⟩
  rw [oneRowNoteStore, List.mem_singleton] at hr
  subst hr
  exact Nat.lt_succ_self 1

/-- A one-row store whose row has the empty subcategory. -/
def oneRowEmptySubStore : Store :=
  { records := [{ id := 1, date := "d", name := "n", amount := 1,
                  category := "c", subcategory := "", note := "" }],
    nextId := 2 }

theorem oneRowEmptySubStore_WF : oneRowEmptySubStore.WF := by decide

/-- Claim C10: an empty subcategory argument disables the subcategory clause
entirely (only the note clause remains, and with both filters empty every
row is returned); consequently no argument pair makes `list_expenses`
return, on every well-formed store, exactly the rows whose subcategory is
the empty string. -/
theorem empty_subcategory_not_selectable :
    (∀ st : Store, st.WF → ∀ nt, list_expenses st "" nt =
      (st.records.filter (fun r => notePass nt r)).map rowToDict) ∧
    (∀ st : Store, st.WF → list_expenses st "" "" = st.records.map rowToDict) ∧
    ¬ ∃ sub nt : String, ∀ st : Store, st.WF →
      list_expenses st sub nt =
        (st.records.filter (fun r => decide (r.subcategory = ""))).map rowToDict := by
  refine ⟨?_, fun st hwf => list_expenses_no_filters st hwf, ?_⟩
  · intro st hwf nt
    rw [list_expenses_eq st hwf]
    congr 1
  · rintro ⟨sub, nt, hall⟩
    by_cases hsub : sub = ""
    · subst hsub
      have hB := hall (oneRowNoteStore nt) (oneRowNoteStore_WF nt)
      rw [list_expenses_eq _ (oneRowNoteStore_WF nt)] at hB
      by_cases hnt : nt = ""
      · subst hnt
        simp [oneRowNoteStore, subcatPass, notePass] at hB
      · simp [oneRowNoteStore, subcatPass, notePass, hnt, likeMatch_self] at hB
    · have hA := hall oneRowEmptySubStore oneRowEmptySubStore_WF
      rw [list_expenses_eq _ oneRowEmptySubStore_WF] at hA
      simp [oneRowEmptySubStore, subcatPass, hsub, Ne.symm hsub] at hA

/-- Claim C1: with at least one row in range, the summary is the header,
a separator, one line `<category>: $<sum>` per category (each category with
matching rows contributing exactly one grouping entry, whose amount is the
sum of that category's matching amounts), a separator, and a final
`Total: $<sum of the category sums>` line; the total also equals the sum of
all matching amounts. -/
theorem summarize_expenses_structure (st : Store) (s e : String)
    (h : ∃ r ∈ st.records, dateBetween r.date s e = true) :
    summarize_expenses st s e =
      "Expense Summary (" ++ s ++ " to " ++ e ++ "):\n" ++ sepLine ++ "\n" ++
        linesFor (groupByCategory (matchingRecords st s e)) ++ sepLine ++ "\n" ++
        "Total: $" ++ fmt2 (sumSnd (groupByCategory (matchingRecords st s e))) ∧
    (∀ c q, (c, q) ∈ groupByCategory (matchingRecords st s e) ↔
      (∃ r ∈ matchingRecords st s e, r.category = c) ∧
        q = catSum c (matchingRecords st s e)) ∧
    (gKeys (groupByCategory (matchingRecords st s e))).Nodup ∧
    sumSnd (groupByCategory (matchingRecords st s e)) =
      ((matchingRecords st s e).map Record.amount).sum := by
  have hne : groupByCategory (matchingRecords st s e) ≠ [] := by
    rw [Ne, groupByCategory_eq_nil_iff]
    obtain ⟨r, hr, hb⟩ := h
    intro hnil
    have hmem : r ∈ matchingRecords st s e := List.mem_filter.2 ⟨hr, hb⟩
    rw [hnil] at hmem
    exact List.not_mem_nil r hmem
  refine ⟨?_, fun c q => mem_groupByCategory_iff c q _, nodup_gKeys_groupByCategory _,
    sumSnd_groupByCategory _⟩
  have hie : (groupByCategory (matchingRecords st s e)).isEmpty = false := by
    cases hgs : groupByCategory (matchingRecords st s e) with
    | nil => exact absurd hgs hne
    | cons x l => rfl
  rw [summarize_expenses]
  simp only [hie, Bool.false_eq_true, if_false]
  rw [summarize_foldl]
  simp only [zero_add]

/-- Store used in the C1 witness: the spec's Food example, amounts 10.5
and 4.5 within the queried range. -/
def foodStore : Store :=
  { records := [{ id := 1, date := "2024-01-02", name := "lunch", amount := 10.5,
                  category := "Food", subcategory := "", note := "" },
                { id := 2, date := "2024-01-03", name := "snack", amount := 4.5,
                  category := "Food", subcategory := "", note := "" }],
    nextId := 3 }

theorem summarize_expenses_structure_witness :
    (∃ r ∈ foodStore.records, dateBetween r.date "2024-01-01" "2024-12-31" = true) ∧
    summarize_expenses foodStore "2024-01-01" "2024-12-31" =
      "Expense Summary (" ++ "2024-01-01" ++ " to " ++ "2024-12-31" ++ "):\n" ++
        sepLine ++ "\n" ++
        linesFor (groupByCategory (matchingRecords foodStore "2024-01-01" "2024-12-31")) ++
        sepLine ++ "\n" ++ "Total: $" ++
        fmt2 (sumSnd (groupByCategory (matchingRecords foodStore "2024-01-01" "2024-12-31"))) :=
  ⟨by decide,
    (summarize_expenses_structure foodStore "2024-01-01" "2024-12-31" (by decide)).1⟩

set_option maxRecDepth 8000 in
/-- The spec's worked example, evaluated end to end: the Food rows 10.5 and
4.5 produce the line `Food: $15.00` and the line `Total: $15.00`. -/
theorem summarize_food_concrete :
    summarize_expenses foodStore "2024-01-01" "2024-12-31" =
      "Expense Summary (2024-01-01 to 2024-12-31):\n" ++ sepLine ++ "\n" ++
        "Food: $15.00\n" ++ sepLine ++ "\n" ++ "Total: $15.00" := by
  have hg : groupByCategory (matchingRecords foodStore "2024-01-01" "2024-12-31") =
      [("Food", (10.5 : ℚ) + 4.5)] := rfl
  simp only [summarize_expenses, hg, List.isEmpty_cons, Bool.false_eq_true, if_false,
    List.foldl_cons, List.foldl_nil, categoryLine]
  rw [show ((10.5 : ℚ) + 4.5) = 15 by norm_num, zero_add]
  decide
